import Mathlib

/-!
Shallow embedding of the expense-approval workflow of the repository.

Sources embedded here:
  - the approval workflow service (class ApprovalWorkflowService in the file
    bundled after src/routes/currencies.js): determineApprovalSequence,
    buildApprovalSequence, buildSequentialSequence, buildPercentageSequence,
    buildSpecificApproverSequence, buildHybridSequence,
    getDefaultApprovalSequence, checkAutoApproval, checkPercentageApproval,
    getNextApprover, areAllRequiredApprovalsComplete;
  - src/routes/approvals.js: the single decision route PUT /:id/action, the
    admin override route PUT /:id/override, and the bulk route PUT /bulk-action;
  - src/routes/expenses.js: the submission route POST / and the cancel route
    PUT /:id/cancel;
  - src/unnamed/part_010: the mongoose Expense schema, embedded as the
    validation predicate applied on save.

Modelling conventions: ObjectIds are Nat, timestamps (new Date()) are a Nat
parameter called now, JS numbers are exact rationals, a document fetched by a
mongoose query is modelled by passing the candidate document and checking the
query conditions on it, and save() applies the schema validators and fails
exactly when one of them fails.  Mongoose strict mode silently drops paths the
schema does not declare, so save also strips the step fields isRequired,
ruleType, percentage and overriddenAt (castStep); every document a route
fetches is therefore in this stripped, persisted form.  JavaScript toString
results are modelled by JsString, which keeps the hex string of a bare
ObjectId apart from the inspect string of a populated document: the two never
coincide.  Receipt, OCR, tag and attachment metadata is omitted: no claim and
no embedded code path reads it.
-/

abbrev UserId := Nat
abbrev CompanyId := Nat

/-- Status values of one approval step, from the Expense schema plus the
value written by the override route (which the schema enum does not allow). -/
inductive StepStatus where
  | pending
  | approved
  | rejected
  | overridden
deriving DecidableEq, Repr

/-- One element of expense.approvalSequence.  The approver is an Option
because buildPercentageSequence and buildHybridSequence write null there. -/
structure ApprovalStep where
  approver : Option UserId
  sequence : Nat
  isRequired : Bool
  status : StepStatus
  comments : Option String
  approvedAt : Option Nat
  rejectedAt : Option Nat
  overriddenAt : Option Nat
  ruleType : Option String
  percentage : Option Rat
deriving DecidableEq, Repr

/-- Builds a step carrying only the fields the sequence builders write. -/
def mkStep (approver : Option UserId) (sequence : Nat) (isRequired : Bool)
    (status : StepStatus) : ApprovalStep :=
  { approver := approver, sequence := sequence, isRequired := isRequired,
    status := status, comments := none, approvedAt := none, rejectedAt := none,
    overriddenAt := none, ruleType := none, percentage := none }

/-- Expense status enum from the schema. -/
inductive ExpStatus where
  | pending
  | approved
  | rejected
  | cancelled
deriving DecidableEq, Repr

/-- finalApproval subdocument of the Expense schema. -/
structure FinalApproval where
  approvedBy : Option UserId
  approvedAt : Option Nat
  rejectedBy : Option UserId
  rejectedAt : Option Nat
  finalComments : Option String
deriving DecidableEq, Repr

/-- The empty finalApproval subdocument (no decision recorded). -/
def FinalApproval.empty : FinalApproval :=
  { approvedBy := none, approvedAt := none, rejectedBy := none,
    rejectedAt := none, finalComments := none }

/-- finalApproval written on a final approve decision. -/
def faApproved (uid : UserId) (now : Nat) (c : Option String) : FinalApproval :=
  { approvedBy := some uid, approvedAt := some now, rejectedBy := none,
    rejectedAt := none, finalComments := c }

/-- finalApproval written on a final reject decision. -/
def faRejected (uid : UserId) (now : Nat) (c : Option String) : FinalApproval :=
  { approvedBy := none, approvedAt := none, rejectedBy := some uid,
    rejectedAt := some now, finalComments := c }

/-- The Expense document, restricted to the fields the embedded routes read
or write. -/
structure Expense where
  employee : UserId
  company : CompanyId
  amount : Rat
  amountInCompanyCurrency : Rat
  category : String
  status : ExpStatus
  currentApprover : Option UserId
  approvalSequence : List ApprovalStep
  finalApproval : FinalApproval
deriving DecidableEq, Repr

/-- A User document, restricted to the fields the embedded code reads. -/
structure User where
  id : UserId
  company : CompanyId
  role : String
  manager : Option UserId
  isManagerApprover : Bool
  isActive : Bool
deriving DecidableEq, Repr

/-- Rule types of the ApprovalRule model, as dispatched on by
buildApprovalSequence and the two check functions. -/
inductive RuleType where
  | sequential
  | percentage
  | specific_approver
  | hybrid
deriving DecidableEq, Repr

/-- One entry of conditions.sequential in an ApprovalRule. -/
structure SeqApprover where
  approver : UserId
  sequence : Nat
  isRequired : Bool
deriving DecidableEq, Repr

/-- conditions.hybrid of an ApprovalRule. -/
structure HybridCond where
  specificApprovers : List UserId
  percentage : Rat
deriving DecidableEq, Repr

/-- conditions of an ApprovalRule. -/
structure RuleConditions where
  sequential : List SeqApprover
  percentage : Rat
  specificApprovers : List UserId
  hybrid : HybridCond
deriving DecidableEq, Repr

/-- amountThreshold of an ApprovalRule; each bound may be absent. -/
structure AmountThreshold where
  minAmount : Option Rat
  maxAmount : Option Rat
deriving DecidableEq, Repr

/-- An ApprovalRule document.  categoryFilter is an Option to model an absent
field as opposed to an empty array, as the query distinguishes the two. -/
structure ApprovalRule where
  company : CompanyId
  isActive : Bool
  rtype : RuleType
  priority : Int
  amountThreshold : AmountThreshold
  categoryFilter : Option (List String)
  conditions : RuleConditions
deriving DecidableEq, Repr

/-- The database contents the embedded code queries. -/
structure Env where
  rules : List ApprovalRule
  users : List User
deriving Repr

/- ApprovalWorkflowService -/

/-- The rule query of determineApprovalSequence.  The source builds a query
object literal with three separate keys all spelled the same way; in
JavaScript a later duplicate key overwrites an earlier one, so only the last
survives: the category clause.  The two amountThreshold clauses
are discarded before the query is sent, hence they do not appear here. -/
def ruleQueryMatches (companyId : CompanyId) (e : Expense) (r : ApprovalRule) : Bool :=
  r.company == companyId && r.isActive &&
    (match r.categoryFilter with
     | none => true
     | some cf => cf.contains e.category || cf.isEmpty)

/-- Insert into a sorted list after every element le considers not greater:
together with sortByKey this is a stable insertion sort, matching the stable
sorts of the runtime (Array.sort and the query sort). -/
def insertSorted (le : α → α → Bool) (a : α) : List α → List α
  | [] => [a]
  | b :: l => if le b a then b :: insertSorted le a l else a :: b :: l

/-- Stable sort by the boolean comparison le. -/
def sortByKey (le : α → α → Bool) (l : List α) : List α :=
  l.foldl (fun acc a => insertSorted le a acc) []

/-- The matching rules sorted by priority descending (sort priority: -1). -/
def matchingRulesSorted (companyId : CompanyId) (e : Expense) (rules : List ApprovalRule) :
    List ApprovalRule :=
  sortByKey (fun a b => b.priority ≤ a.priority) (rules.filter (ruleQueryMatches companyId e))

/-- The rule determineApprovalSequence uses: the head of the sorted matching
rules (rules[0]), none when no rule matches. -/
def selectedRule (companyId : CompanyId) (e : Expense) (rules : List ApprovalRule) :
    Option ApprovalRule :=
  (matchingRulesSorted companyId e rules).head?

/-- buildSequentialSequence: sort conditions.sequential by its sequence field
ascending and turn each entry into a pending step. -/
def buildSequentialSequence (sequentialApprovers : List SeqApprover) : List ApprovalStep :=
  (sortByKey (fun a b => a.sequence ≤ b.sequence) sequentialApprovers).map
    (fun a => mkStep (some a.approver) a.sequence a.isRequired .pending)

/-- buildPercentageSequence: a single pending step with a null approver. -/
def buildPercentageSequence (rule : ApprovalRule) : List ApprovalStep :=
  [{ mkStep none 1 false .pending with
      ruleType := some "percentage", percentage := some rule.conditions.percentage }]

/-- buildSpecificApproverSequence: one required pending step per approver. -/
def buildSpecificApproverSequence (specificApprovers : List UserId) : List ApprovalStep :=
  specificApprovers.enum.map
    (fun p => mkStep (some p.2) (p.1 + 1) true .pending)

/-- buildHybridSequence: the specific approvers as required steps, followed by
one percentage step with a null approver. -/
def buildHybridSequence (rule : ApprovalRule) : List ApprovalStep :=
  let specs := rule.conditions.hybrid.specificApprovers.enum.map
    (fun p => { mkStep (some p.2) (p.1 + 1) true .pending with
                  ruleType := some "hybrid_specific" })
  specs ++ [{ mkStep none (specs.length + 1) false .pending with
                ruleType := some "hybrid_percentage",
                percentage := some rule.conditions.hybrid.percentage }]

/-- getDefaultApprovalSequence.  Returns none when the employee document is
absent, where the source dereferences null and throws. -/
def getDefaultApprovalSequence (env : Env) (e : Expense) : Option (List ApprovalStep) :=
  match env.users.find? (fun u => u.id == e.employee) with
  | none => none
  | some emp =>
    match emp.manager.bind (fun mid => env.users.find? (fun u => u.id == mid)) with
    | some mgr =>
      if mgr.isManagerApprover then
        some [mkStep (some mgr.id) 1 true .pending]
      else
        defaultFromCompany env e
    | none => defaultFromCompany env e
where
  /-- The two fallback findOne queries of getDefaultApprovalSequence. -/
  defaultFromCompany (env : Env) (e : Expense) : Option (List ApprovalStep) :=
    match env.users.find? (fun u => u.company == e.company && u.role == "manager"
        && u.isManagerApprover && u.isActive) with
    | some mgr => some [mkStep (some mgr.id) 1 true .pending]
    | none =>
      match env.users.find? (fun u => u.company == e.company && u.role == "admin"
          && u.isActive) with
      | some adm => some [mkStep (some adm.id) 1 true .pending]
      | none => some []

/-- buildApprovalSequence: dispatch on the rule type. -/
def buildApprovalSequence (_env : Env) (rule : ApprovalRule) (_e : Expense) :
    Option (List ApprovalStep) :=
  match rule.rtype with
  | .sequential => some (buildSequentialSequence rule.conditions.sequential)
  | .percentage => some (buildPercentageSequence rule)
  | .specific_approver => some (buildSpecificApproverSequence rule.conditions.specificApprovers)
  | .hybrid => some (buildHybridSequence rule)

/-- determineApprovalSequence: use the highest priority matching rule, else
the default sequence. -/
def determineApprovalSequence (env : Env) (e : Expense) (companyId : CompanyId) :
    Option (List ApprovalStep) :=
  match selectedRule companyId e env.rules with
  | none => getDefaultApprovalSequence env e
  | some rule => buildApprovalSequence env rule e

/-- Model of the strings the embedded code compares with ===.  objectId uid
stands for the 24-hex-digit string an ObjectId yields under toString (as in
a._id.toString()); documentInspect uid stands for the inspect string a
populated mongoose User document yields under toString.  The two shapes never
produce the same string. -/
inductive JsString where
  | objectId (uid : UserId)
  | documentInspect (uid : UserId)
deriving DecidableEq, Repr

/-- checkAutoApproval: the rules map their specific approvers through
a._id.toString(), giving id strings, and compare them with
approval.approver.toString().  Its only caller is the single decision route,
which fetched the expense with populate(approvalSequence.approver), so
approval.approver is a User document there and its toString is the inspect
string, never an id string; a null approver throws and the surrounding catch
answers false. -/
def checkAutoApproval (env : Env) (e : Expense) (step : ApprovalStep) : Bool :=
  (env.rules.filter (fun r => r.company == e.company && r.isActive &&
      (r.rtype == .specific_approver || r.rtype == .hybrid))).any
    (fun r =>
      match r.rtype with
      | .specific_approver => r.conditions.specificApprovers.any
          (fun a => some (JsString.objectId a) == step.approver.map JsString.documentInspect)
      | .hybrid => r.conditions.hybrid.specificApprovers.any
          (fun a => some (JsString.objectId a) == step.approver.map JsString.documentInspect)
      | _ => false)

/-- The approval percentage (approvedCount / totalCount) * 100 computed at
several places of the source, as an exact rational. -/
def approvalPercentage (seq : List ApprovalStep) : Rat :=
  (((seq.filter (fun a => a.status == .approved)).length : Rat) / (seq.length : Rat)) * 100

/-- checkPercentageApproval: true when some active percentage or hybrid rule
of the company has its percentage threshold reached by the sequence. -/
def checkPercentageApproval (env : Env) (e : Expense) (approvals : List ApprovalStep) : Bool :=
  (env.rules.filter (fun r => r.company == e.company && r.isActive &&
      (r.rtype == .percentage || r.rtype == .hybrid))).any
    (fun r =>
      let pct := match r.rtype with
        | .hybrid => r.conditions.hybrid.percentage
        | _ => r.conditions.percentage
      approvalPercentage approvals ≥ pct)

/-- getNextApprover: the first step whose status is still pending. -/
def getNextApprover (seq : List ApprovalStep) : Option ApprovalStep :=
  (seq.filter (fun a => a.status == .pending)).head?

/-- areAllRequiredApprovalsComplete: every required step has left pending. -/
def areAllRequiredApprovalsComplete (seq : List ApprovalStep) : Bool :=
  (seq.filter (fun a => a.isRequired)).all (fun a => a.status != .pending)

/- Expense schema validation (src/unnamed/part_010), applied on save(). -/

/-- The validators of one approvalSequence entry: approver is required, and
status must be one of the enum values pending, approved, rejected. -/
def validStep (s : ApprovalStep) : Bool :=
  s.approver.isSome &&
    (s.status == .pending || s.status == .approved || s.status == .rejected)

/-- The schema validators the embedded fields carry: amount has min 0, and
every approvalSequence entry must pass validStep.  The other embedded fields
are required but non-optional in the embedding, and the status enum is the
ExpStatus type itself. -/
def validExpense (e : Expense) : Bool :=
  decide (0 ≤ e.amount) && e.approvalSequence.all validStep

/-- Errors a route can answer with. -/
inductive ApiErr where
  | notFound
  | badRequest
  | validationError
deriving DecidableEq, Repr

/-- Strict-mode cast of one approvalSequence entry: the schema declares only
approver, sequence, status, comments, approvedAt and rejectedAt, so mongoose
silently drops isRequired, ruleType, percentage and overriddenAt (a dropped
boolean reads as undefined, which every use in the code treats as false). -/
def castStep (s : ApprovalStep) : ApprovalStep :=
  { s with isRequired := false, ruleType := none, percentage := none,
           overriddenAt := none }

/-- Strict-mode cast of the whole expense document. -/
def castExpense (e : Expense) : Expense :=
  { e with approvalSequence := e.approvalSequence.map castStep }

/-- Mongoose save(): casts to the schema, dropping undeclared paths, runs the
schema validators on the cast document, and persists it when they pass. -/
def save (e : Expense) : Except ApiErr Expense :=
  if validExpense (castExpense e) then .ok (castExpense e)
  else .error .validationError

/- Route handlers as pure functions. -/

/-- The decision of the action routes. -/
inductive DecisionAction where
  | approve
  | reject
deriving DecidableEq, Repr

/-- The finalizing field writes shared by every terminal branch of the
decision, bulk and override routes: a new sequence, a terminal status, a
finalApproval record, and a cleared currentApprover. -/
def withDecision (e : Expense) (seq : List ApprovalStep) (st : ExpStatus)
    (fa : FinalApproval) : Expense :=
  { e with approvalSequence := seq, status := st, finalApproval := fa,
           currentApprover := none }

/-- The non-finalizing field writes of the decision routes: a new sequence and
a new currentApprover, everything else untouched. -/
def withNext (e : Expense) (seq : List ApprovalStep) (capp : Option UserId) : Expense :=
  { e with approvalSequence := seq, currentApprover := capp }

/-- The step predicate of the findIndex calls of both decision routes: the
step belongs to the acting user and is still pending. -/
def isCurrentPendingFor (uid : UserId) (s : ApprovalStep) : Bool :=
  s.approver == some uid && s.status == .pending

/-- The in-place mutation of expense.approvalSequence at the index found by
findIndex: rewrite the first step satisfying p, keep the rest. -/
def updateFirst (p : ApprovalStep → Bool) (f : ApprovalStep → ApprovalStep) :
    List ApprovalStep → List ApprovalStep
  | [] => []
  | s :: rest => if p s then f s :: rest else s :: updateFirst p f rest

/-- The mutation both decision routes apply to the current approval step:
status, comments, and the matching timestamp. -/
def decideStep (act : DecisionAction) (c : Option String) (now : Nat) (s : ApprovalStep) : ApprovalStep :=
  match act with
  | .approve => { s with status := .approved, comments := c, approvedAt := some now }
  | .reject => { s with status := .rejected, comments := c, rejectedAt := some now }

/-- PUT /approvals/:id/action (src/routes/approvals.js lines 10-162).  The
findOne query conditions become the eligibility guard; the findIndex miss
becomes badRequest; the save at the end applies the schema validators. -/
def applyAction (env : Env) (u : User) (act : DecisionAction) (c : Option String) (now : Nat)
    (e : Expense) : Except ApiErr Expense :=
  if ¬ (e.company == u.company && e.status == .pending
        && e.currentApprover == some u.id) then
    .error .notFound
  else
    match e.approvalSequence.find? (isCurrentPendingFor u.id) with
    | none => .error .badRequest
    | some s0 =>
      let cur := decideStep act c now s0
      let seq := updateFirst (isCurrentPendingFor u.id) (decideStep act c now) e.approvalSequence
      let auto := checkAutoApproval env e cur
      if act == .reject || auto then
        save (withDecision e seq (if act == .reject then .rejected else .approved)
          (if act == .reject then faRejected u.id now c else faApproved u.id now c))
      else if areAllRequiredApprovalsComplete seq then
        if checkPercentageApproval env e seq then
          save (withDecision e seq .approved (faApproved u.id now c))
        else
          match getNextApprover seq with
          | some nxt => save (withNext e seq nxt.approver)
          | none =>
            if approvalPercentage seq ≥ 50 then
              save (withDecision e seq .approved (faApproved u.id now c))
            else
              save (withDecision e seq .rejected
                (faRejected u.id now (some "Insufficient approvals")))
      else
        match getNextApprover seq with
        | some nxt => save (withNext e seq nxt.approver)
        | none =>
          if approvalPercentage seq ≥ 50 then
            save (withDecision e seq .approved (faApproved u.id now c))
          else
            save (withDecision e seq .rejected
              (faRejected u.id now (some "Insufficient approvals")))

/-- One expense of PUT /approvals/bulk-action (src/routes/approvals.js lines
300-411).  The find query keeps pending expenses of the company, restricted
to currentApprover for a manager but not for an admin; a findIndex miss is
reported as skipped, modelled badRequest.  The simplified bulk logic skips
checkAutoApproval, checkPercentageApproval and the fallback threshold. -/
def bulkApplyOne (_env : Env) (u : User) (act : DecisionAction) (c : Option String) (now : Nat)
    (e : Expense) : Except ApiErr Expense :=
  if ¬ (e.company == u.company && e.status == .pending
        && (u.role != "manager" || e.currentApprover == some u.id)) then
    .error .notFound
  else
    match e.approvalSequence.find? (isCurrentPendingFor u.id) with
    | none => .error .badRequest
    | some _ =>
      let seq := updateFirst (isCurrentPendingFor u.id) (decideStep act c now) e.approvalSequence
      if act == .reject then
        save (withDecision e seq .rejected (faRejected u.id now c))
      else if areAllRequiredApprovalsComplete seq then
        save (withDecision e seq .approved (faApproved u.id now c))
      else
        match getNextApprover seq with
        | some nxt => save (withNext e seq nxt.approver)
        | none => save { e with approvalSequence := seq }

/-- PUT /approvals/bulk-action over a list: each expense is processed by the
same per-expense body, one after the other, each saved on its own. -/
def bulkAction (env : Env) (u : User) (act : DecisionAction) (c : Option String) (now : Nat)
    (es : List Expense) : List (Except ApiErr Expense) :=
  es.map (bulkApplyOne env u act c now)

/-- PUT /approvals/:id/override (src/routes/approvals.js lines 207-268).  The
query checks only id and company, never status.  Every still-pending step is
set to the status overridden before the save. -/
def overrideAction (u : User) (act : ExpStatus) (c : Option String) (now : Nat)
    (e : Expense) : Except ApiErr Expense :=
  if ¬ (act == .approved || act == .rejected) then
    .error .badRequest
  else if ¬ (e.company == u.company) then
    .error .notFound
  else
    save (withDecision e
      (e.approvalSequence.map (fun s =>
        if s.status == .pending then
          { s with status := .overridden, comments := some "Overridden by admin",
                   overriddenAt := some now }
        else s))
      act
      (if act == .rejected then
        faRejected u.id now (some (c.getD "Overridden by admin: rejected"))
      else
        faApproved u.id now (some (c.getD "Overridden by admin: approved"))))

/-- PUT /expenses/:id/cancel (src/routes/expenses.js lines 431-461).  The
query checks id, employee and pending status; the handler sets only the
status field and saves. -/
def cancelExpense (u : User) (e : Expense) : Except ApiErr Expense :=
  if ¬ (e.employee == u.id && e.status == .pending) then
    .error .notFound
  else
    save { e with status := .cancelled }

/-- POST /expenses (src/routes/expenses.js lines 50-130), from the point where
the expense document exists: determine the approval sequence, set the current
approver to the approver of the first step when the sequence is non-empty,
then save.  A thrown error anywhere is answered as a failed submission. -/
def submitExpense (env : Env) (e0 : Expense) : Except ApiErr Expense :=
  match determineApprovalSequence env e0 e0.company with
  | none => .error .validationError
  | some seq =>
    let e1 := { e0 with approvalSequence := seq }
    let e2 := match seq.head? with
      | some s => { e1 with currentApprover := s.approver }
      | none => e1
    save e2

/- Helper lemmas shared by several claims. -/

/-- decideStep keeps a step valid: it only writes an allowed status value and
leaves the approver untouched. -/
theorem validStep_decideStep (act : DecisionAction) (c : Option String) (now : Nat)
    (s : ApprovalStep) (h : validStep s = true) :
    validStep (decideStep act c now s) = true := by
  cases act <;> simp [validStep, decideStep] at h ⊢ <;> exact h.1

/-- updateFirst preserves a pointwise list invariant preserved by f. -/
theorem all_updateFirst (p : ApprovalStep → Bool) (f : ApprovalStep → ApprovalStep)
    (q : ApprovalStep → Bool) (hf : ∀ s, q s = true → q (f s) = true) :
    ∀ l : List ApprovalStep, l.all q = true → (updateFirst p f l).all q = true := by
  intro l
  induction l with
  | nil => simp [updateFirst]
  | cons s rest ih =>
    intro h
    simp only [List.all_cons, Bool.and_eq_true] at h
    by_cases hp : p s = true
    · simp [updateFirst, hp, List.all_cons, hf s h.1, h.2]
    · simp [updateFirst, hp, List.all_cons, h.1, ih h.2]

/-- If no step of the sequence is pending then every required step has left
pending. -/
theorem allRequired_of_noPending (seq : List ApprovalStep)
    (h : seq.all (fun s => s.status != .pending) = true) :
    areAllRequiredApprovalsComplete seq = true := by
  simp only [areAllRequiredApprovalsComplete, List.all_eq_true, List.mem_filter]
  simp only [List.all_eq_true] at h
  intro s hs
  exact h s hs.1

/-- If some required step is still pending then getNextApprover finds a
pending step. -/
theorem nextApprover_of_notAllRequired (seq : List ApprovalStep)
    (h : areAllRequiredApprovalsComplete seq = false) :
    ∃ nxt, getNextApprover seq = some nxt := by
  simp only [areAllRequiredApprovalsComplete, List.all_eq_false, List.mem_filter] at h
  obtain ⟨s, ⟨hs, hreq⟩, hpend⟩ := h
  simp only [bne, Bool.not_eq_true', beq_eq_false_iff_ne, ne_eq, Decidable.not_not] at hpend
  have hmem : s ∈ seq.filter (fun a => a.status == .pending) := by
    simp [List.mem_filter, hs, hpend]
  match hh : (seq.filter (fun a => a.status == .pending)) with
  | [] => rw [hh] at hmem; simp at hmem
  | nxt :: rest => exact ⟨nxt, by simp [getNextApprover, hh]⟩

/-- validExpense only looks at the amount and the sequence of a decided
expense. -/
theorem validExpense_withDecision (e : Expense) (seq : List ApprovalStep)
    (st : ExpStatus) (fa : FinalApproval) :
    validExpense (withDecision e seq st fa)
      = (decide (0 ≤ e.amount) && seq.all validStep) := rfl

/-- validExpense only looks at the amount and the sequence of an advanced
expense. -/
theorem validExpense_withNext (e : Expense) (seq : List ApprovalStep)
    (capp : Option UserId) :
    validExpense (withNext e seq capp)
      = (decide (0 ≤ e.amount) && seq.all validStep) := rfl

/-- castStep keeps the approver and the status, so it keeps a step valid. -/
theorem validStep_castStep (s : ApprovalStep) : validStep (castStep s) = validStep s := rfl

/-- The cast of a list passes the step validators exactly when the list
does. -/
theorem all_validStep_map_castStep (l : List ApprovalStep) :
    (l.map castStep).all validStep = l.all validStep := by
  induction l with
  | nil => rfl
  | cons s rest ih => simp only [List.map_cons, List.all_cons, ih, validStep_castStep]

/-- The strict-mode cast changes no field a schema validator reads. -/
theorem validExpense_castExpense (e : Expense) :
    validExpense (castExpense e) = validExpense e := by
  show (decide (0 ≤ e.amount) && (e.approvalSequence.map castStep).all validStep)
      = (decide (0 ≤ e.amount) && e.approvalSequence.all validStep)
  rw [all_validStep_map_castStep]

/-- Deciding a step writes only schema fields, so it commutes with the
strict-mode cast. -/
theorem castStep_decideStep (act : DecisionAction) (c : Option String) (now : Nat)
    (s : ApprovalStep) :
    castStep (decideStep act c now s) = decideStep act c now (castStep s) := by
  cases act <;> rfl

/-- Mapping the cast over an already stripped list changes nothing. -/
theorem map_castStep_of_fixed :
    ∀ l : List ApprovalStep, (∀ s ∈ l, castStep s = s) → l.map castStep = l := by
  intro l
  induction l with
  | nil => intro _; rfl
  | cons s rest ih =>
    intro hl
    simp only [List.map_cons]
    rw [hl s (List.mem_cons_self s rest),
      ih (fun x hx => hl x (List.mem_cons_of_mem s hx))]

/-- A decision on a sequence already in persisted (stripped) form leaves it in
persisted form. -/
theorem updateFirst_decideStep_cast_fixed (p : ApprovalStep → Bool)
    (act : DecisionAction) (c : Option String) (now : Nat) :
    ∀ l : List ApprovalStep, (∀ s ∈ l, castStep s = s) →
      (updateFirst p (decideStep act c now) l).map castStep
        = updateFirst p (decideStep act c now) l := by
  intro l
  induction l with
  | nil => intro _; rfl
  | cons s rest ih =>
    intro hl
    have hs := hl s (List.mem_cons_self s rest)
    have hrest : ∀ x ∈ rest, castStep x = x :=
      fun x hx => hl x (List.mem_cons_of_mem s hx)
    by_cases hp : p s = true
    · simp only [updateFirst]
      rw [if_pos hp, List.map_cons, castStep_decideStep, hs,
        map_castStep_of_fixed rest hrest]
    · simp only [updateFirst]
      rw [if_neg hp, List.map_cons, hs, ih hrest]

/-- The id strings of the rules never equal the inspect string of the
populated approver document (nor a missing approver), so checkAutoApproval
answers false on every input: the program can never auto-approve. -/
theorem checkAutoApproval_always_false (env : Env) (e : Expense) (step : ApprovalStep) :
    checkAutoApproval env e step = false := by
  rw [checkAutoApproval, List.any_eq_false]
  intro r _
  cases r.rtype with
  | specific_approver =>
    show ¬ (r.conditions.specificApprovers.any
      (fun a => some (JsString.objectId a) == step.approver.map JsString.documentInspect)) = true
    rw [Bool.not_eq_true, List.any_eq_false]
    intro a _
    cases step.approver <;> simp
  | hybrid =>
    show ¬ (r.conditions.hybrid.specificApprovers.any
      (fun a => some (JsString.objectId a) == step.approver.map JsString.documentInspect)) = true
    rw [Bool.not_eq_true, List.any_eq_false]
    intro a _
    cases step.approver <;> simp
  | sequential => simp
  | percentage => simp

/-- C2: a reject decision by the current approver is terminal, through the
single decision route and through the bulk route alike: the expense becomes
rejected, finalApproval records the approver as rejectedBy, and
currentApprover is cleared, regardless of remaining pending steps. -/
theorem C2_reject_terminal (env : Env) (u : User) (c : Option String) (now : Nat)
    (e : Expense)
    (hco : e.company = u.company) (hst : e.status = .pending)
    (hcu : e.currentApprover = some u.id)
    (hfind : (e.approvalSequence.find? (isCurrentPendingFor u.id)).isSome = true)
    (hval : validExpense e = true) :
    ∃ e1 e2,
      applyAction env u .reject c now e = .ok e1 ∧
      e1.status = .rejected ∧ e1.finalApproval = faRejected u.id now c ∧
      e1.currentApprover = none ∧
      bulkApplyOne env u .reject c now e = .ok e2 ∧
      e2.status = .rejected ∧ e2.finalApproval = faRejected u.id now c ∧
      e2.currentApprover = none := by
  have hguard : (e.company == u.company && e.status == .pending
      && e.currentApprover == some u.id) = true := by
    simp [hco, hst, hcu]
  obtain ⟨s0, hs0⟩ := Option.isSome_iff_exists.mp hfind
  have hseqall : (updateFirst (isCurrentPendingFor u.id)
      (decideStep .reject c now) e.approvalSequence).all validStep = true := by
    apply all_updateFirst _ _ _ (validStep_decideStep .reject c now)
    simp only [validExpense, Bool.and_eq_true] at hval
    exact hval.2
  have hval1 : validExpense (withDecision e
      (updateFirst (isCurrentPendingFor u.id) (decideStep .reject c now) e.approvalSequence)
      .rejected (faRejected u.id now c)) = true := by
    rw [validExpense_withDecision]
    simp only [validExpense, Bool.and_eq_true] at hval
    simp [hval.1, hseqall]
  refine ⟨castExpense (withDecision e
      (updateFirst (isCurrentPendingFor u.id) (decideStep .reject c now) e.approvalSequence)
      .rejected (faRejected u.id now c)),
    castExpense (withDecision e
      (updateFirst (isCurrentPendingFor u.id) (decideStep .reject c now) e.approvalSequence)
      .rejected (faRejected u.id now c)), ?_, rfl, rfl, rfl, ?_, rfl, rfl, rfl⟩
  · have step1 : applyAction env u .reject c now e
        = save (withDecision e
            (updateFirst (isCurrentPendingFor u.id) (decideStep .reject c now) e.approvalSequence)
            .rejected (faRejected u.id now c)) := by
      simp [applyAction, hguard, hs0]
    rw [step1]
    simp [save, validExpense_castExpense, hval1]
  · have hguard2 : (e.company == u.company && e.status == .pending
        && (u.role != "manager" || e.currentApprover == some u.id)) = true := by
      simp [hco, hst, hcu]
    have step2 : bulkApplyOne env u .reject c now e
        = save (withDecision e
            (updateFirst (isCurrentPendingFor u.id) (decideStep .reject c now) e.approvalSequence)
            .rejected (faRejected u.id now c)) := by
      simp [bulkApplyOne, hguard2, hs0]
    rw [step2]
    simp [save, validExpense_castExpense, hval1]

/-- C2 witness: a concrete pending expense rejected by its approver. -/
theorem C2_reject_terminal_witness :
    ∃ e1 e2,
      applyAction ⟨[], []⟩ ⟨1, 7, "manager", none, true, true⟩ .reject none 0
        ⟨2, 7, 100, 100, "Travel", .pending, some 1,
          [mkStep (some 1) 1 false .pending], FinalApproval.empty⟩ = .ok e1 ∧
      e1.status = .rejected ∧ e1.finalApproval = faRejected 1 0 none ∧
      e1.currentApprover = none ∧
      bulkApplyOne ⟨[], []⟩ ⟨1, 7, "manager", none, true, true⟩ .reject none 0
        ⟨2, 7, 100, 100, "Travel", .pending, some 1,
          [mkStep (some 1) 1 false .pending], FinalApproval.empty⟩ = .ok e2 ∧
      e2.status = .rejected ∧ e2.finalApproval = faRejected 1 0 none ∧
      e2.currentApprover = none :=
  C2_reject_terminal ⟨[], []⟩ ⟨1, 7, "manager", none, true, true⟩ none 0
    ⟨2, 7, 100, 100, "Travel", .pending, some 1,
      [mkStep (some 1) 1 false .pending], FinalApproval.empty⟩
    rfl rfl rfl (by decide) (by decide)

/-- C3: auto-approval by a designated specific approver can never fire: the
rules compare id strings against the inspect string of the populated approver
document, so checkAutoApproval is constantly false, and on the failing input
(an active specific_approver rule listing approver 1, an expense with pending
steps for approvers 1 and 9) approver 1 approving advances currentApprover to
9 with status still pending instead of finalizing approved. -/
theorem C3_auto_approval_never_fires :
    (∀ (env : Env) (e : Expense) (step : ApprovalStep),
      checkAutoApproval env e step = false) ∧
    (∃ e1,
      applyAction
        ⟨[⟨7, true, .specific_approver, 0, ⟨none, none⟩, none, ⟨[], 0, [1], ⟨[], 0⟩⟩⟩], []⟩
        ⟨1, 7, "manager", none, true, true⟩ .approve none 5
        ⟨2, 7, 100, 100, "Travel", .pending, some 1,
          [mkStep (some 1) 1 false .pending, mkStep (some 9) 2 false .pending],
          FinalApproval.empty⟩ = .ok e1 ∧
      e1.status = .pending ∧ e1.currentApprover = some 9) := by
  refine ⟨checkAutoApproval_always_false, castExpense (withNext
      ⟨2, 7, 100, 100, "Travel", .pending, some 1,
        [mkStep (some 1) 1 false .pending, mkStep (some 9) 2 false .pending],
        FinalApproval.empty⟩
      [decideStep .approve none 5 (mkStep (some 1) 1 false .pending),
       mkStep (some 9) 2 false .pending] (some 9)), rfl, rfl, rfl⟩

/-- C4 failing input: a two-approver sequential sequence as it is persisted
(the schema strips isRequired), for a company that also has an active
percentage rule with threshold 50. -/
def c4Expense : Expense :=
  ⟨2, 7, 100, 100, "Travel", .pending, some 1,
    [mkStep (some 1) 1 false .pending, mkStep (some 3) 2 false .pending],
    FinalApproval.empty⟩

/-- C4 failing input: the rules of company 7, a sequential rule for approvers
1 and 3 plus an active percentage rule with threshold 50. -/
def c4Env : Env :=
  ⟨[⟨7, true, .sequential, 1, ⟨none, none⟩, none,
      ⟨[⟨1, 1, true⟩, ⟨3, 2, true⟩], 0, [], ⟨[], 0⟩⟩⟩,
    ⟨7, true, .percentage, 0, ⟨none, none⟩, none, ⟨[], 50, [], ⟨[], 0⟩⟩⟩], []⟩

/-- C4: the Expense schema has no isRequired path, so the persisted sequence
loses it and areAllRequiredApprovalsComplete is vacuously true on every
fetched expense; with an active percentage rule of threshold 50 the first
approval alone (1 of 2 steps, 50 percent) finalizes the expense approved
while the second, originally required, step is still pending — the claim says
it stays pending with currentApprover moved to the second approver. -/
theorem C4_required_check_vacuous :
    (∀ seq : List ApprovalStep,
      areAllRequiredApprovalsComplete (seq.map castStep) = true) ∧
    (∃ e1,
      applyAction c4Env ⟨1, 7, "manager", none, true, true⟩ .approve none 1 c4Expense
        = .ok e1 ∧
      e1.status = .approved ∧
      e1.approvalSequence.any (fun s => s.status == .pending) = true) := by
  constructor
  · intro seq
    rw [areAllRequiredApprovalsComplete]
    have hf : (seq.map castStep).filter (fun a => a.isRequired) = [] := by
      rw [List.filter_eq_nil_iff]
      intro a ha
      obtain ⟨s, _, rfl⟩ := List.mem_map.mp ha
      simp [castStep]
    rw [hf]
    rfl
  · have hguard : (c4Expense.company == (⟨1, 7, "manager", none, true, true⟩ : User).company
        && c4Expense.status == .pending
        && c4Expense.currentApprover
            == some (⟨1, 7, "manager", none, true, true⟩ : User).id) = true := rfl
    have hf : c4Expense.approvalSequence.find?
        (isCurrentPendingFor (⟨1, 7, "manager", none, true, true⟩ : User).id)
        = some (mkStep (some 1) 1 false .pending) := rfl
    have hup : updateFirst
        (isCurrentPendingFor (⟨1, 7, "manager", none, true, true⟩ : User).id)
        (decideStep .approve none 1) c4Expense.approvalSequence
        = [decideStep .approve none 1 (mkStep (some 1) 1 false .pending),
           mkStep (some 3) 2 false .pending] := rfl
    have hauto : checkAutoApproval c4Env c4Expense
        (decideStep .approve none 1 (mkStep (some 1) 1 false .pending)) = false := rfl
    have hreq : areAllRequiredApprovalsComplete
        [decideStep .approve none 1 (mkStep (some 1) 1 false .pending),
         mkStep (some 3) 2 false .pending] = true := rfl
    have hpct : checkPercentageApproval c4Env c4Expense
        [decideStep .approve none 1 (mkStep (some 1) 1 false .pending),
         mkStep (some 3) 2 false .pending] = true := by
      rw [checkPercentageApproval, List.any_eq_true]
      refine ⟨⟨7, true, .percentage, 0, ⟨none, none⟩, none, ⟨[], 50, [], ⟨[], 0⟩⟩⟩,
        by decide, ?_⟩
      show decide (approvalPercentage
        [decideStep .approve none 1 (mkStep (some 1) 1 false .pending),
         mkStep (some 3) 2 false .pending] ≥ (50 : Rat)) = true
      rw [decide_eq_true_iff]
      show ((1 : Rat) / (2 : Rat)) * 100 ≥ 50
      norm_num
    have hstep : applyAction c4Env ⟨1, 7, "manager", none, true, true⟩ .approve none 1
        c4Expense
        = save (withDecision c4Expense
            [decideStep .approve none 1 (mkStep (some 1) 1 false .pending),
             mkStep (some 3) 2 false .pending]
            .approved (faApproved 1 1 none)) := by
      simp only [applyAction, hguard, hf, hup, hauto, hreq, hpct]
      rfl
    refine ⟨castExpense (withDecision c4Expense
        [decideStep .approve none 1 (mkStep (some 1) 1 false .pending),
         mkStep (some 3) 2 false .pending]
        .approved (faApproved 1 1 none)), ?_, rfl, by decide⟩
    rw [hstep]
    rfl

/-- When no step is pending any more getNextApprover finds nothing. -/
theorem getNextApprover_none_of_noPending (seq : List ApprovalStep)
    (h : seq.all (fun s => s.status != .pending) = true) :
    getNextApprover seq = none := by
  rw [getNextApprover]
  have hf : seq.filter (fun a => a.status == .pending) = [] := by
    rw [List.filter_eq_nil_iff]
    intro a ha
    simp only [List.all_eq_true] at h
    simpa using h a ha
  rw [hf]
  rfl

/-- C5: an approve decision on a persisted-form expense that neither
auto-approves nor satisfies a configured percentage rule, and after which no
pending step remains, is settled by the fallback threshold: approved when the approval percentage of
the whole sequence is at least 50, otherwise rejected with the comment
Insufficient approvals; currentApprover is cleared either way. -/
theorem C5_fallback_threshold (env : Env) (u : User) (c : Option String) (now : Nat)
    (e : Expense) (s0 : ApprovalStep) (seqU : List ApprovalStep)
    (hco : e.company = u.company) (hst : e.status = .pending)
    (hcu : e.currentApprover = some u.id)
    (hs0 : e.approvalSequence.find? (isCurrentPendingFor u.id) = some s0)
    (hval : validExpense e = true)
    (hsequ : seqU = updateFirst (isCurrentPendingFor u.id) (decideStep .approve c now)
      e.approvalSequence)
    (hauto : checkAutoApproval env e (decideStep .approve c now s0) = false)
    (hpct : checkPercentageApproval env e seqU = false)
    (hnopend : seqU.all (fun s => s.status != .pending) = true)
    (hper : ∀ s ∈ e.approvalSequence, castStep s = s) :
    (50 ≤ approvalPercentage seqU →
      applyAction env u .approve c now e
        = .ok (withDecision e seqU .approved (faApproved u.id now c))) ∧
    (¬ 50 ≤ approvalPercentage seqU →
      applyAction env u .approve c now e
        = .ok (withDecision e seqU .rejected
            (faRejected u.id now (some "Insufficient approvals")))) := by
  have hguard : (e.company == u.company && e.status == .pending
      && e.currentApprover == some u.id) = true := by
    simp [hco, hst, hcu]
  have hreq : areAllRequiredApprovalsComplete seqU = true := allRequired_of_noPending seqU hnopend
  have hnext : getNextApprover seqU = none := getNextApprover_none_of_noPending seqU hnopend
  have hseqall : seqU.all validStep = true := by
    rw [hsequ]
    apply all_updateFirst _ _ _ (validStep_decideStep .approve c now)
    simp only [validExpense, Bool.and_eq_true] at hval
    exact hval.2
  have hvalA : validExpense (withDecision e seqU .approved (faApproved u.id now c)) = true := by
    rw [validExpense_withDecision]
    simp only [validExpense, Bool.and_eq_true] at hval
    simp [hval.1, hseqall]
  have hvalR : validExpense (withDecision e seqU .rejected
      (faRejected u.id now (some "Insufficient approvals"))) = true := by
    rw [validExpense_withDecision]
    simp only [validExpense, Bool.and_eq_true] at hval
    simp [hval.1, hseqall]
  have hfix : seqU.map castStep = seqU := by
    rw [hsequ]
    exact updateFirst_decideStep_cast_fixed _ _ _ _ _ hper
  have hcastA : castExpense (withDecision e seqU .approved (faApproved u.id now c))
      = withDecision e seqU .approved (faApproved u.id now c) := by
    simp [castExpense, withDecision, hfix]
  have hcastR : castExpense (withDecision e seqU .rejected
        (faRejected u.id now (some "Insufficient approvals")))
      = withDecision e seqU .rejected
        (faRejected u.id now (some "Insufficient approvals")) := by
    simp [castExpense, withDecision, hfix]
  constructor
  · intro hge
    simp only [applyAction, hguard, hs0, hauto, ← hsequ, hreq, hpct, hnext]
    rw [if_pos hge]
    simp [save, validExpense_castExpense, hvalA, hcastA]
  · intro hlt
    simp only [applyAction, hguard, hs0, hauto, ← hsequ, hreq, hpct, hnext]
    rw [if_neg hlt]
    simp [save, validExpense_castExpense, hvalR, hcastR]

/-- C5 witness: a single-step sequence approved by its approver reaches the
fallback threshold at 100 percent and is finalized approved. -/
theorem C5_fallback_threshold_witness :
    applyAction ⟨[], []⟩ ⟨1, 7, "manager", none, true, true⟩ .approve none 3
      ⟨2, 7, 100, 100, "Travel", .pending, some 1,
        [mkStep (some 1) 1 false .pending], FinalApproval.empty⟩
      = .ok (withDecision
          ⟨2, 7, 100, 100, "Travel", .pending, some 1,
            [mkStep (some 1) 1 false .pending], FinalApproval.empty⟩
          [decideStep .approve none 3 (mkStep (some 1) 1 false .pending)]
          .approved (faApproved 1 3 none)) :=
  (C5_fallback_threshold ⟨[], []⟩ ⟨1, 7, "manager", none, true, true⟩ none 3
    ⟨2, 7, 100, 100, "Travel", .pending, some 1,
      [mkStep (some 1) 1 false .pending], FinalApproval.empty⟩
    (mkStep (some 1) 1 false .pending)
    [decideStep .approve none 3 (mkStep (some 1) 1 false .pending)]
    rfl rfl rfl (by decide) (by decide) rfl rfl rfl (by decide) (by decide)).1
    (by simp [approvalPercentage, decideStep, mkStep]; norm_num)

/-- C1 failing input: an active rule whose amountThreshold is 100 to 1000. -/
def c1Rule : ApprovalRule :=
  ⟨7, true, .sequential, 0, ⟨some 100, some 1000⟩, some [],
    ⟨[⟨5, 1, true⟩], 0, [], ⟨[], 0⟩⟩⟩

/-- C1 failing input: an expense of 50 in company currency. -/
def c1Expense : Expense :=
  ⟨2, 7, 50, 50, "Meals", .pending, none, [], FinalApproval.empty⟩

/-- C1: the rule query discards the amountThreshold clauses (duplicate query
keys), so the sequence builder selects a rule whose amount range excludes the
expense amount: 50 lies below the minimum 100, yet the rule is chosen. -/
theorem C1_amount_threshold_discarded :
    c1Expense.amountInCompanyCurrency < 100 ∧
    c1Rule.amountThreshold.minAmount = some 100 ∧
    c1Rule.isActive = true ∧
    selectedRule 7 c1Expense [c1Rule] = some c1Rule := by
  refine ⟨?_, rfl, rfl, rfl⟩
  show (50 : Rat) < 100
  norm_num

/-- C6 failing input: a pending expense with two pending steps. -/
def c6Expense : Expense :=
  ⟨2, 7, 100, 100, "Travel", .pending, some 1,
    [mkStep (some 1) 1 false .pending, mkStep (some 3) 2 false .pending],
    FinalApproval.empty⟩

/-- C6: the override route writes the step status overridden, which the
Expense schema enum does not allow, so the save fails validation and the
override of a pending expense is never persisted. -/
theorem C6_override_save_fails :
    validStep ({ mkStep (some 1) 1 false .pending with
                   status := .overridden,
                   comments := some "Overridden by admin",
                   overriddenAt := some 4 }) = false ∧
    overrideAction ⟨9, 7, "admin", none, true, true⟩ .approved none 4 c6Expense
      = .error .validationError := by
  exact ⟨rfl, rfl⟩

/-- C9 counterexample input: an already approved expense with no pending
steps. -/
def c9Expense : Expense :=
  ⟨2, 7, 100, 100, "Travel", .approved, none,
    [mkStep (some 1) 1 false .approved], faApproved 1 1 none⟩

/-- C9 counterexample: the override route carries no status guard, so it
mutates an already finalized expense instead of rejecting the call: the
approved expense below is flipped to rejected. -/
theorem C9_override_mutates_terminal :
    c9Expense.status = .approved ∧
    overrideAction ⟨9, 7, "admin", none, true, true⟩ .rejected none 5 c9Expense
      = .ok (withDecision c9Expense [mkStep (some 1) 1 false .approved] .rejected
          (faRejected 9 5 (some "Overridden by admin: rejected"))) ∧
    (withDecision c9Expense [mkStep (some 1) 1 false .approved] .rejected
      (faRejected 9 5 (some "Overridden by admin: rejected"))).status = .rejected := by
  exact ⟨rfl, rfl, rfl⟩

/-- C9 amended: a decision on a non-pending expense is rejected as not found
with no state change, through the single route and the bulk route alike; the
admin override is not guarded by status (see the counterexample). -/
theorem C9_terminal_decisions_rejected (env : Env) (u : User) (act : DecisionAction)
    (c : Option String) (now : Nat) (e : Expense) (h : e.status ≠ .pending) :
    applyAction env u act c now e = .error .notFound ∧
    bulkApplyOne env u act c now e = .error .notFound := by
  have hb : (e.status == .pending) = false := by
    simp [h]
  constructor
  · rw [applyAction, if_pos]
    simp [hb]
  · rw [bulkApplyOne, if_pos]
    simp [hb]

/-- C9 witness: a decision attempted on a concrete approved expense fails
with not found on both routes. -/
theorem C9_terminal_decisions_rejected_witness :
    applyAction ⟨[], []⟩ ⟨1, 7, "manager", none, true, true⟩ .approve none 6 c9Expense
      = .error .notFound ∧
    bulkApplyOne ⟨[], []⟩ ⟨1, 7, "manager", none, true, true⟩ .approve none 6 c9Expense
      = .error .notFound :=
  C9_terminal_decisions_rejected ⟨[], []⟩ ⟨1, 7, "manager", none, true, true⟩
    .approve none 6 c9Expense (by decide)

/-- C7 counterexample input: a pending expense, in persisted form, whose two
pending steps belong to the acting approver 1 and to approver 3. -/
def c7Expense : Expense :=
  ⟨2, 7, 100, 100, "Travel", .pending, some 1,
    [mkStep (some 1) 1 false .pending, mkStep (some 3) 2 false .pending],
    FinalApproval.empty⟩

/-- C7 counterexample: on the same expense and the same approve decision the
single route runs the percentage check, finds no matching rule, advances to
the second approver and stays pending, while the simplified bulk route
finalizes approved at once: the two paths do not agree. -/
theorem C7_single_bulk_divergence :
    ∃ e1 e2,
      applyAction ⟨[], []⟩ ⟨1, 7, "manager", none, true, true⟩ .approve none 4 c7Expense
        = .ok e1 ∧
      bulkApplyOne ⟨[], []⟩ ⟨1, 7, "manager", none, true, true⟩ .approve none 4 c7Expense
        = .ok e2 ∧
      e1.status = .pending ∧ e2.status = .approved := by
  refine ⟨withNext c7Expense
      [decideStep .approve none 4 (mkStep (some 1) 1 false .pending),
       mkStep (some 3) 2 false .pending] (some 3),
    withDecision c7Expense
      [decideStep .approve none 4 (mkStep (some 1) 1 false .pending),
       mkStep (some 3) 2 false .pending] .approved (faApproved 1 4 none),
    rfl, rfl, rfl, rfl⟩

/-- C7 amended: the bulk route matches the single route on reject decisions
for the assigned approver, and processes the expenses of a request
independently, each through the same per-expense function; approve decisions
go through a simplified logic that can diverge (see the counterexample). -/
theorem C7_bulk_reject_refines_single :
    (∀ (env : Env) (u : User) (c : Option String) (now : Nat) (e : Expense),
      e.currentApprover = some u.id →
      bulkApplyOne env u .reject c now e = applyAction env u .reject c now e) ∧
    (∀ (env : Env) (u : User) (act : DecisionAction) (c : Option String) (now : Nat)
      (es : List Expense),
      bulkAction env u act c now es = es.map (bulkApplyOne env u act c now)) := by
  constructor
  · intro env u c now e hcu
    have hc : (e.currentApprover == some u.id) = true := by simp [hcu]
    rw [applyAction, bulkApplyOne]
    simp only [hc, Bool.or_true, Bool.and_true]
    split
    · rfl
    · cases hf : e.approvalSequence.find? (isCurrentPendingFor u.id) with
      | none => rfl
      | some s0 => simp
  · intro env u act c now es
    rfl

/-- C7 witness: on a concrete expense a bulk reject and a single reject agree
exactly. -/
theorem C7_bulk_reject_refines_single_witness :
    bulkApplyOne ⟨[], []⟩ ⟨1, 7, "manager", none, true, true⟩ .reject none 4 c7Expense
      = applyAction ⟨[], []⟩ ⟨1, 7, "manager", none, true, true⟩ .reject none 4 c7Expense :=
  C7_bulk_reject_refines_single.1 ⟨[], []⟩ ⟨1, 7, "manager", none, true, true⟩
    none 4 c7Expense rfl

/-- Unfolding save on a successful result: the persisted document is the
strict-mode cast of the saved one, and the validators passed. -/
theorem save_eq_ok (x y : Expense) (h : save x = .ok y) :
    y = castExpense x ∧ validExpense x = true := by
  by_cases hv : validExpense (castExpense x) = true
  · rw [save, if_pos hv] at h
    exact ⟨(Except.ok.inj h).symm, by rwa [validExpense_castExpense] at hv⟩
  · rw [save, if_neg hv] at h
    exact absurd h (by simp)

/-- The step getNextApprover returns belongs to the sequence and is
pending. -/
theorem getNextApprover_spec (seq : List ApprovalStep) (nxt : ApprovalStep)
    (h : getNextApprover seq = some nxt) :
    nxt ∈ seq ∧ nxt.status = .pending := by
  rw [getNextApprover] at h
  cases hf : seq.filter (fun a => a.status == .pending) with
  | nil => rw [hf] at h; exact absurd h (by simp)
  | cons a l =>
    rw [hf] at h
    have ha : a = nxt := by simpa using h
    have hm : nxt ∈ seq.filter (fun a => a.status == .pending) := by
      rw [hf, ha] at *
      exact List.mem_cons_self nxt l
    have := List.mem_filter.mp hm
    exact ⟨this.1, by simpa using this.2⟩

/-- Every step determineApprovalSequence builds is pending. -/
theorem determine_steps_pending (env : Env) (e : Expense) (cid : CompanyId)
    (seq : List ApprovalStep) (h : determineApprovalSequence env e cid = some seq) :
    ∀ s ∈ seq, s.status = .pending := by
  unfold determineApprovalSequence getDefaultApprovalSequence
    getDefaultApprovalSequence.defaultFromCompany buildApprovalSequence at h
  repeat' split at h
  all_goals try exact Option.noConfusion h
  all_goals rw [Option.some.injEq] at h
  all_goals subst h
  all_goals intro s hs
  all_goals try (simp only [List.mem_singleton] at hs; subst hs; rfl)
  all_goals try simp at hs
  · rw [buildSequentialSequence] at hs
    obtain ⟨a, _, ha⟩ := List.mem_map.mp hs
    rw [← ha]
    rfl
  · rw [buildPercentageSequence] at hs
    simp only [List.mem_singleton] at hs
    subst hs
    rfl
  · rw [buildSpecificApproverSequence] at hs
    obtain ⟨a, _, ha⟩ := List.mem_map.mp hs
    rw [← ha]
    rfl
  · simp only [buildHybridSequence] at hs
    rcases List.mem_append.mp hs with hs2 | hs2
    · obtain ⟨a, _, ha⟩ := List.mem_map.mp hs2
      rw [← ha]
      rfl
    · simp only [List.mem_singleton] at hs2
      subst hs2
      rfl

/-- The invariant of claim C8: currentApprover is set exactly on a pending
expense that still has a pending step. -/
def currentApproverInvariant (e : Expense) : Prop :=
  e.currentApprover ≠ none ↔
    (e.status = .pending ∧ e.approvalSequence.any (fun s => s.status == .pending) = true)

/-- A member of a schema-valid sequence has an approver. -/
theorem approver_ne_none_of_valid (seq : List ApprovalStep)
    (hv : seq.all validStep = true) (s : ApprovalStep) (hs : s ∈ seq) :
    s.approver ≠ none := by
  have h1 := List.all_eq_true.mp hv s hs
  simp only [validStep, Bool.and_eq_true] at h1
  exact Option.ne_none_iff_isSome.mpr h1.1

/-- A successful single decision leaves the expense satisfying the
currentApprover invariant. -/
theorem applyAction_ok_invariant (env : Env) (u : User) (act : DecisionAction)
    (c : Option String) (now : Nat) (e e1 : Expense)
    (hok : applyAction env u act c now e = .ok e1) :
    currentApproverInvariant e1 := by
  by_cases hg : (e.company == u.company && e.status == .pending
      && e.currentApprover == some u.id) = true
  case neg =>
    have herr : applyAction env u act c now e = .error .notFound := by
      rw [applyAction, if_pos (by simpa using hg)]
    rw [herr] at hok
    exact Except.noConfusion hok
  case pos =>
    have hst : e.status = .pending := by
      simp only [Bool.and_eq_true, beq_iff_eq] at hg
      exact hg.1.2
    cases hf : e.approvalSequence.find? (isCurrentPendingFor u.id) with
    | none =>
      have herr : applyAction env u act c now e = .error .badRequest := by
        simp [applyAction, hg, hf]
      rw [herr] at hok
      exact Except.noConfusion hok
    | some s0 =>
      cases act with
      | reject =>
        have hstep : applyAction env u .reject c now e
            = save (withDecision e (updateFirst (isCurrentPendingFor u.id)
                (decideStep .reject c now) e.approvalSequence) .rejected
                (faRejected u.id now c)) := by
          simp [applyAction, hg, hf]
        rw [hstep] at hok
        obtain ⟨rfl, hv⟩ := save_eq_ok _ _ hok
        simp [currentApproverInvariant, castExpense, withDecision]
      | approve =>
        by_cases hauto : checkAutoApproval env e (decideStep .approve c now s0) = true
        · have hstep : applyAction env u .approve c now e
              = save (withDecision e (updateFirst (isCurrentPendingFor u.id)
                  (decideStep .approve c now) e.approvalSequence) .approved
                  (faApproved u.id now c)) := by
            simp [applyAction, hg, hf, hauto]
          rw [hstep] at hok
          obtain ⟨rfl, hv⟩ := save_eq_ok _ _ hok
          simp [currentApproverInvariant, castExpense, withDecision]
        · have hautof : checkAutoApproval env e (decideStep .approve c now s0) = false := by
            simpa using hauto
          by_cases hreq : areAllRequiredApprovalsComplete (updateFirst
              (isCurrentPendingFor u.id) (decideStep .approve c now)
              e.approvalSequence) = true
          · by_cases hpc : checkPercentageApproval env e (updateFirst
                (isCurrentPendingFor u.id) (decideStep .approve c now)
                e.approvalSequence) = true
            · have hstep : applyAction env u .approve c now e
                  = save (withDecision e (updateFirst (isCurrentPendingFor u.id)
                      (decideStep .approve c now) e.approvalSequence) .approved
                      (faApproved u.id now c)) := by
                simp [applyAction, hg, hf, hautof, hreq, hpc]
              rw [hstep] at hok
              obtain ⟨rfl, hv⟩ := save_eq_ok _ _ hok
              simp [currentApproverInvariant, castExpense, withDecision]
            · have hpcf : checkPercentageApproval env e (updateFirst
                  (isCurrentPendingFor u.id) (decideStep .approve c now)
                  e.approvalSequence) = false := by simpa using hpc
              cases hnx : getNextApprover (updateFirst (isCurrentPendingFor u.id)
                  (decideStep .approve c now) e.approvalSequence) with
              | some nxt =>
                have hstep : applyAction env u .approve c now e
                    = save (withNext e (updateFirst (isCurrentPendingFor u.id)
                        (decideStep .approve c now) e.approvalSequence) nxt.approver) := by
                  simp [applyAction, hg, hf, hautof, hreq, hpcf, hnx]
                rw [hstep] at hok
                obtain ⟨rfl, hv⟩ := save_eq_ok _ _ hok
                rw [validExpense_withNext, Bool.and_eq_true] at hv
                obtain ⟨hmem, hpend⟩ := getNextApprover_spec _ _ hnx
                have hne := approver_ne_none_of_valid _ hv.2 _ hmem
                unfold currentApproverInvariant castExpense withNext
                exact iff_of_true hne
                  ⟨hst, List.any_eq_true.mpr
                    ⟨castStep nxt, List.mem_map.mpr ⟨nxt, hmem, rfl⟩, by simp [castStep, hpend]⟩⟩
              | none =>
                by_cases hge : 50 ≤ approvalPercentage (updateFirst
                    (isCurrentPendingFor u.id) (decideStep .approve c now)
                    e.approvalSequence)
                · have hstep : applyAction env u .approve c now e
                      = save (withDecision e (updateFirst (isCurrentPendingFor u.id)
                          (decideStep .approve c now) e.approvalSequence) .approved
                          (faApproved u.id now c)) := by
                    simp only [applyAction, hg, hf, hautof, hreq, hpcf, hnx]
                    simp [hge]
                  rw [hstep] at hok
                  obtain ⟨rfl, hv⟩ := save_eq_ok _ _ hok
                  simp [currentApproverInvariant, castExpense, withDecision]
                · have hstep : applyAction env u .approve c now e
                      = save (withDecision e (updateFirst (isCurrentPendingFor u.id)
                          (decideStep .approve c now) e.approvalSequence) .rejected
                          (faRejected u.id now (some "Insufficient approvals"))) := by
                    simp only [applyAction, hg, hf, hautof, hreq, hpcf, hnx]
                    simp [hge]
                  rw [hstep] at hok
                  obtain ⟨rfl, hv⟩ := save_eq_ok _ _ hok
                  simp [currentApproverInvariant, castExpense, withDecision]
          · have hreqf : areAllRequiredApprovalsComplete (updateFirst
                (isCurrentPendingFor u.id) (decideStep .approve c now)
                e.approvalSequence) = false := by simpa using hreq
            cases hnx : getNextApprover (updateFirst (isCurrentPendingFor u.id)
                (decideStep .approve c now) e.approvalSequence) with
            | some nxt =>
              have hstep : applyAction env u .approve c now e
                  = save (withNext e (updateFirst (isCurrentPendingFor u.id)
                      (decideStep .approve c now) e.approvalSequence) nxt.approver) := by
                simp [applyAction, hg, hf, hautof, hreqf, hnx]
              rw [hstep] at hok
              obtain ⟨rfl, hv⟩ := save_eq_ok _ _ hok
              rw [validExpense_withNext, Bool.and_eq_true] at hv
              obtain ⟨hmem, hpend⟩ := getNextApprover_spec _ _ hnx
              have hne := approver_ne_none_of_valid _ hv.2 _ hmem
              unfold currentApproverInvariant castExpense withNext
              exact iff_of_true hne
                ⟨hst, List.any_eq_true.mpr
                  ⟨castStep nxt, List.mem_map.mpr ⟨nxt, hmem, rfl⟩, by simp [castStep, hpend]⟩⟩
            | none =>
              obtain ⟨nxt, hnx2⟩ := nextApprover_of_notAllRequired _ hreqf
              rw [hnx] at hnx2
              exact Option.noConfusion hnx2

/-- A successful bulk decision on one expense leaves it satisfying the
currentApprover invariant. -/
theorem bulkApplyOne_ok_invariant (env : Env) (u : User) (act : DecisionAction)
    (c : Option String) (now : Nat) (e e1 : Expense)
    (hok : bulkApplyOne env u act c now e = .ok e1) :
    currentApproverInvariant e1 := by
  by_cases hg : (e.company == u.company && e.status == .pending
      && (u.role != "manager" || e.currentApprover == some u.id)) = true
  case neg =>
    have herr : bulkApplyOne env u act c now e = .error .notFound := by
      rw [bulkApplyOne, if_pos (by simpa using hg)]
    rw [herr] at hok
    exact Except.noConfusion hok
  case pos =>
    have hst : e.status = .pending := by
      simp only [Bool.and_eq_true, beq_iff_eq] at hg
      exact hg.1.2
    cases hf : e.approvalSequence.find? (isCurrentPendingFor u.id) with
    | none =>
      have herr : bulkApplyOne env u act c now e = .error .badRequest := by
        simp [bulkApplyOne, hg, hf]
      rw [herr] at hok
      exact Except.noConfusion hok
    | some s0 =>
      cases act with
      | reject =>
        have hstep : bulkApplyOne env u .reject c now e
            = save (withDecision e (updateFirst (isCurrentPendingFor u.id)
                (decideStep .reject c now) e.approvalSequence) .rejected
                (faRejected u.id now c)) := by
          simp [bulkApplyOne, hg, hf]
        rw [hstep] at hok
        obtain ⟨rfl, hv⟩ := save_eq_ok _ _ hok
        simp [currentApproverInvariant, castExpense, withDecision]
      | approve =>
        by_cases hreq : areAllRequiredApprovalsComplete (updateFirst
            (isCurrentPendingFor u.id) (decideStep .approve c now)
            e.approvalSequence) = true
        · have hstep : bulkApplyOne env u .approve c now e
              = save (withDecision e (updateFirst (isCurrentPendingFor u.id)
                  (decideStep .approve c now) e.approvalSequence) .approved
                  (faApproved u.id now c)) := by
            simp [bulkApplyOne, hg, hf, hreq]
          rw [hstep] at hok
          obtain ⟨rfl, hv⟩ := save_eq_ok _ _ hok
          simp [currentApproverInvariant, castExpense, withDecision]
        · have hreqf : areAllRequiredApprovalsComplete (updateFirst
              (isCurrentPendingFor u.id) (decideStep .approve c now)
              e.approvalSequence) = false := by simpa using hreq
          cases hnx : getNextApprover (updateFirst (isCurrentPendingFor u.id)
              (decideStep .approve c now) e.approvalSequence) with
          | some nxt =>
            have hstep : bulkApplyOne env u .approve c now e
                = save (withNext e (updateFirst (isCurrentPendingFor u.id)
                    (decideStep .approve c now) e.approvalSequence) nxt.approver) := by
              simp [bulkApplyOne, hg, hf, hreqf, hnx]
            rw [hstep] at hok
            obtain ⟨rfl, hv⟩ := save_eq_ok _ _ hok
            rw [validExpense_withNext, Bool.and_eq_true] at hv
            obtain ⟨hmem, hpend⟩ := getNextApprover_spec _ _ hnx
            have hne := approver_ne_none_of_valid _ hv.2 _ hmem
            unfold currentApproverInvariant castExpense withNext
            exact iff_of_true hne
              ⟨hst, List.any_eq_true.mpr
                ⟨castStep nxt, List.mem_map.mpr ⟨nxt, hmem, rfl⟩, by simp [castStep, hpend]⟩⟩
          | none =>
            obtain ⟨nxt, hnx2⟩ := nextApprover_of_notAllRequired _ hreqf
            rw [hnx] at hnx2
            exact Option.noConfusion hnx2

/-- A successful override leaves the expense satisfying the currentApprover
invariant. -/
theorem overrideAction_ok_invariant (u : User) (act : ExpStatus) (c : Option String)
    (now : Nat) (e e1 : Expense) (hok : overrideAction u act c now e = .ok e1) :
    currentApproverInvariant e1 := by
  cases act with
  | pending => rw [overrideAction, if_pos (by decide)] at hok; exact Except.noConfusion hok
  | cancelled => rw [overrideAction, if_pos (by decide)] at hok; exact Except.noConfusion hok
  | approved =>
    rw [overrideAction, if_neg (by decide)] at hok
    by_cases hco : (e.company == u.company) = true
    · rw [if_neg (by simpa using hco)] at hok
      obtain ⟨rfl, hv⟩ := save_eq_ok _ _ hok
      simp [currentApproverInvariant, castExpense, withDecision]
    · rw [if_pos (by simpa using hco)] at hok
      exact Except.noConfusion hok
  | rejected =>
    rw [overrideAction, if_neg (by decide)] at hok
    by_cases hco : (e.company == u.company) = true
    · rw [if_neg (by simpa using hco)] at hok
      obtain ⟨rfl, hv⟩ := save_eq_ok _ _ hok
      simp [currentApproverInvariant, castExpense, withDecision]
    · rw [if_pos (by simpa using hco)] at hok
      exact Except.noConfusion hok

/-- A successful submission leaves the expense satisfying the currentApprover
invariant. -/
theorem submitExpense_ok_invariant (env : Env) (e0 e1 : Expense)
    (hst : e0.status = .pending) (hcu : e0.currentApprover = none)
    (hok : submitExpense env e0 = .ok e1) :
    currentApproverInvariant e1 := by
  rw [submitExpense] at hok
  cases hd : determineApprovalSequence env e0 e0.company with
  | none => rw [hd] at hok; exact Except.noConfusion hok
  | some seq =>
    rw [hd] at hok
    simp only [] at hok
    have hpend := determine_steps_pending env e0 e0.company seq hd
    cases hh : seq.head? with
    | none =>
      rw [hh] at hok
      obtain ⟨rfl, hv⟩ := save_eq_ok _ _ hok
      have hseqnil : seq = [] := List.head?_eq_none_iff.mp hh
      subst hseqnil
      unfold currentApproverInvariant
      simp [castExpense, hcu, hst]
    | some s =>
      rw [hh] at hok
      obtain ⟨rfl, hv⟩ := save_eq_ok _ _ hok
      have hmem : s ∈ seq := by
        cases seq with
        | nil => exact Option.noConfusion hh
        | cons a l =>
          have : a = s := by simpa using hh
          rw [← this]
          exact List.mem_cons_self a l
      simp only [validExpense, Bool.and_eq_true] at hv
      have hne := approver_ne_none_of_valid _ hv.2 _ hmem
      unfold currentApproverInvariant castExpense
      exact iff_of_true hne
        ⟨hst, List.any_eq_true.mpr
          ⟨castStep s, List.mem_map.mpr ⟨s, hmem, rfl⟩, by simp [castStep, hpend s hmem]⟩⟩

/-- A successful cancellation only changes the status: the currentApprover
field is left exactly as it was. -/
theorem cancelExpense_keeps_currentApprover (u : User) (e e1 : Expense)
    (hok : cancelExpense u e = .ok e1) :
    e1.currentApprover = e.currentApprover ∧ e1.status = .cancelled := by
  rw [cancelExpense] at hok
  by_cases hg : (e.employee == u.id && e.status == .pending) = true
  · rw [if_neg (by simpa using hg)] at hok
    obtain ⟨rfl, hv⟩ := save_eq_ok _ _ hok
    exact ⟨rfl, rfl⟩
  · rw [if_pos (by simpa using hg)] at hok
    exact Except.noConfusion hok

/-- C8 counterexample: cancelling a pending expense does not clear
currentApprover, so a cancelled (terminal) expense keeps a non-null
currentApprover, refuting the invariant as claimed. -/
theorem C8_cancel_keeps_currentApprover :
    ∃ e1,
      cancelExpense ⟨2, 7, "employee", none, false, true⟩
        ⟨2, 7, 100, 100, "Travel", .pending, some 1,
          [mkStep (some 1) 1 false .pending], FinalApproval.empty⟩ = .ok e1 ∧
      e1.status = .cancelled ∧ e1.currentApprover = some 1 :=
  ⟨⟨2, 7, 100, 100, "Travel", .cancelled, some 1,
      [mkStep (some 1) 1 false .pending], FinalApproval.empty⟩, rfl, rfl, rfl⟩

/-- C8 amended: the currentApprover invariant (non-null exactly on a pending
expense with a pending step) holds after every successful submission, single
decision, bulk decision and override, while cancellation leaves
currentApprover untouched, so a cancelled expense can keep a non-null
currentApprover. -/
theorem C8_currentApprover_invariant_amended :
    (∀ (env : Env) (u : User) (act : DecisionAction) (c : Option String) (now : Nat)
      (e e1 : Expense), applyAction env u act c now e = .ok e1 →
      currentApproverInvariant e1) ∧
    (∀ (env : Env) (u : User) (act : DecisionAction) (c : Option String) (now : Nat)
      (e e1 : Expense), bulkApplyOne env u act c now e = .ok e1 →
      currentApproverInvariant e1) ∧
    (∀ (u : User) (act : ExpStatus) (c : Option String) (now : Nat) (e e1 : Expense),
      overrideAction u act c now e = .ok e1 → currentApproverInvariant e1) ∧
    (∀ (env : Env) (e0 e1 : Expense), e0.status = .pending → e0.currentApprover = none →
      submitExpense env e0 = .ok e1 → currentApproverInvariant e1) ∧
    (∀ (u : User) (e e1 : Expense), cancelExpense u e = .ok e1 →
      e1.currentApprover = e.currentApprover ∧ e1.status = .cancelled) :=
  ⟨applyAction_ok_invariant, bulkApplyOne_ok_invariant, overrideAction_ok_invariant,
   submitExpense_ok_invariant, cancelExpense_keeps_currentApprover⟩

/-- C8 witness: the invariant holds for the concrete outcome of a reject
decision. -/
theorem C8_currentApprover_invariant_amended_witness :
    currentApproverInvariant (withDecision
      ⟨2, 7, 100, 100, "Travel", .pending, some 1,
        [mkStep (some 1) 1 false .pending], FinalApproval.empty⟩
      [decideStep .reject none 0 (mkStep (some 1) 1 false .pending)]
      .rejected (faRejected 1 0 none)) :=
  C8_currentApprover_invariant_amended.1 ⟨[], []⟩ ⟨1, 7, "manager", none, true, true⟩
    .reject none 0
    ⟨2, 7, 100, 100, "Travel", .pending, some 1,
      [mkStep (some 1) 1 false .pending], FinalApproval.empty⟩
    (withDecision
      ⟨2, 7, 100, 100, "Travel", .pending, some 1,
        [mkStep (some 1) 1 false .pending], FinalApproval.empty⟩
      [decideStep .reject none 0 (mkStep (some 1) 1 false .pending)]
      .rejected (faRejected 1 0 none))
    rfl

/-- C10: when the selected rule is of type percentage or hybrid, the built
sequence contains a step with a null approver; the schema requires the
approver, so the save fails validation and the submission returns an error
instead of creating a pending expense. -/
theorem C10_percentage_rule_blocks_submission (env : Env) (e0 : Expense)
    (r : ApprovalRule) (hr : selectedRule e0.company e0 env.rules = some r)
    (hty : r.rtype = .percentage ∨ r.rtype = .hybrid) :
    ∃ seq, determineApprovalSequence env e0 e0.company = some seq ∧
      (∃ s ∈ seq, s.approver = none) ∧
      submitExpense env e0 = .error .validationError := by
  rcases hty with hty | hty
  · have hseq : determineApprovalSequence env e0 e0.company
        = some (buildPercentageSequence r) := by
      simp only [determineApprovalSequence, hr, buildApprovalSequence, hty]
    refine ⟨buildPercentageSequence r, hseq, ⟨_, List.mem_singleton_self _, rfl⟩, ?_⟩
    rw [submitExpense, hseq]
    simp only [buildPercentageSequence, List.head?_cons]
    rw [save, if_neg]
    rw [validExpense_castExpense]
    simp [validExpense, validStep, mkStep]
  · have hseq : determineApprovalSequence env e0 e0.company
        = some (buildHybridSequence r) := by
      simp only [determineApprovalSequence, hr, buildApprovalSequence, hty]
    have hvseq : (buildHybridSequence r).all validStep = false := by
      simp only [buildHybridSequence, List.all_append]
      simp [validStep, mkStep]
    refine ⟨buildHybridSequence r, hseq, ?_, ?_⟩
    · simp only [buildHybridSequence]
      exact ⟨_, List.mem_append_right _ (List.mem_singleton_self _), rfl⟩
    · rw [submitExpense, hseq]
      simp only []
      cases hh : (buildHybridSequence r).head? with
      | none =>
        rw [save, if_neg]
        rw [validExpense_castExpense]
        simp [validExpense, hvseq]
      | some s =>
        rw [save, if_neg]
        rw [validExpense_castExpense]
        simp [validExpense, hvseq]

/-- C10 witness: a concrete company with a single percentage rule cannot get
an expense submitted. -/
theorem C10_percentage_rule_blocks_submission_witness :
    ∃ seq,
      determineApprovalSequence
        ⟨[⟨7, true, .percentage, 0, ⟨none, none⟩, none, ⟨[], 60, [], ⟨[], 0⟩⟩⟩], []⟩
        ⟨2, 7, 100, 100, "Travel", .pending, none, [], FinalApproval.empty⟩ 7
        = some seq ∧
      (∃ s ∈ seq, s.approver = none) ∧
      submitExpense
        ⟨[⟨7, true, .percentage, 0, ⟨none, none⟩, none, ⟨[], 60, [], ⟨[], 0⟩⟩⟩], []⟩
        ⟨2, 7, 100, 100, "Travel", .pending, none, [], FinalApproval.empty⟩
        = .error .validationError :=
  C10_percentage_rule_blocks_submission
    ⟨[⟨7, true, .percentage, 0, ⟨none, none⟩, none, ⟨[], 60, [], ⟨[], 0⟩⟩⟩], []⟩
    ⟨2, 7, 100, 100, "Travel", .pending, none, [], FinalApproval.empty⟩
    ⟨7, true, .percentage, 0, ⟨none, none⟩, none, ⟨[], 60, [], ⟨[], 0⟩⟩⟩
    rfl (Or.inl rfl)
